import Mathlib

/-!
Shallow embedding of `dominant_color_histogram` from `dominant_color_wx.py`
(the core of the dominant-color finder; the wxPython presentation layer is out
of scope).  The function decodes an image, optionally Gaussian-blurs it,
quantizes every pixel into `bins_per_channel ^ 3` RGB bins, picks the most
populous bin via `np.unique` / `np.argmax`, and returns the truncated mean of
the pixels in that bin.

Numeric modelling: the source computes channel bins with float64 division
(`pixels[:, c] / (256 / B)`) truncated by `astype(int)`, and the final mean
with float64 division truncated by `int()`.  These float computations are
modelled by exact rational arithmetic; for every channel value in `[0, 255]`
and every `bins_per_channel ≤ 128` (indeed every value up to 185) the float64
bin agrees with the exact rational bin, so the model is bit-for-bit faithful
on the supported parameter range.
-/

namespace DominantColor

/-- A pixel: one RGB triple, a row of the `(N, 3)`-shaped `np.uint8` array
`pixels` in the source.  Channel values of a decoded image lie in `[0, 255]`;
that fact is recorded separately by `ValidPixel`. -/
abbrev Pixel := ℕ × ℕ × ℕ

/-- Channel values of a decoded `uint8` image are at most 255. -/
def ValidPixel (p : Pixel) : Prop := p.1 ≤ 255 ∧ p.2.1 ≤ 255 ∧ p.2.2 ≤ 255

instance (p : Pixel) : Decidable (ValidPixel p) := by
  unfold ValidPixel; infer_instance

/-- Truncation toward zero of a rational: the semantics of numpy
`astype(int)` and of Python `int()` applied to a finite float. -/
def truncInt (q : ℚ) : ℤ := if q < 0 then -⌊-q⌋ else ⌊q⌋

/-- Line 14 of the source: `factor = 256 / bins_per_channel`, Python true
division. -/
def factor (B : ℕ) : ℚ := 256 / (B : ℚ)

/-- Lines 15-17: `(pixels[:, c] / factor).astype(int)` for one channel
value. -/
def rawBin (B : ℕ) (v : ℕ) : ℤ := truncInt ((v : ℚ) / factor B)

/-- Lines 19-21: `np.clip(x, 0, bins_per_channel - 1)` (numpy applies the
lower bound first, then the upper bound). -/
def clipBin (B : ℕ) (x : ℤ) : ℤ := min ((B : ℤ) - 1) (max 0 x)

/-- The quantized, clipped bin of one channel value. -/
def chanBin (B : ℕ) (v : ℕ) : ℤ := clipBin B (rawBin B v)

/-- Lines 23-27: `bin_index = r_bins * B**2 + g_bins * B + b_bins`.  The
source computes this in numpy fixed-width integers (int64 on 64-bit
platforms, int32 on Windows); the unbounded `ℤ` used here agrees with that
arithmetic whenever `B ^ 3` fits the width — in particular for every
`B ≤ 1290`, since `1290 ^ 3 < 2 ^ 31` — while for vastly larger `B` the
source can wrap where this model does not. -/
def encodeBin (B : ℕ) (r g b : ℤ) : ℤ := r * (B : ℤ) ^ 2 + g * (B : ℤ) + b

/-- The flattened bin index of one pixel. -/
def binIndex (B : ℕ) (p : Pixel) : ℤ :=
  encodeBin B (chanBin B p.1) (chanBin B p.2.1) (chanBin B p.2.2)

/-- Lines 32-34: decoding of the dominant bin index back into per-channel
bins (`rb = dom // B**2`, `gb = (dom // B) % B`, `bb = dom % B`; numpy `//`
and `%` are floor division and its remainder, which on `ℤ` are `/` and
`%`). -/
def decodeBin (B : ℕ) (n : ℤ) : ℤ × ℤ × ℤ :=
  (n / (B : ℤ) ^ 2, (n / (B : ℤ)) % (B : ℤ), n % (B : ℤ))

/-! ## Quantizer lemmas -/

theorem truncInt_of_nonneg {q : ℚ} (h : 0 ≤ q) : truncInt q = ⌊q⌋ := by
  unfold truncInt
  rw [if_neg (not_lt.mpr h)]

theorem truncInt_natCast (v : ℕ) : truncInt (v : ℚ) = (v : ℤ) := by
  rw [truncInt_of_nonneg (by positivity), Int.floor_natCast]

/-- The raw (pre-clip) bin: the float expression `v / (256 / B)` truncated to
an integer equals the exact integer `v * B / 256`. -/
theorem rawBin_eq (B v : ℕ) (hB : B ≠ 0) :
    rawBin B v = ((v * B / 256 : ℕ) : ℤ) := by
  have hBQ : (B : ℚ) ≠ 0 := Nat.cast_ne_zero.mpr hB
  have hq : (v : ℚ) / factor B = ((v * B : ℕ) : ℚ) / ((256 : ℕ) : ℚ) := by
    unfold factor
    push_cast
    field_simp
  have h0 : (0 : ℚ) ≤ (v : ℚ) / factor B := by
    rw [hq]; positivity
  rw [rawBin, truncInt_of_nonneg h0, hq,
    ← Int.natCast_floor_eq_floor (by positivity), Nat.floor_div_eq_div]

theorem rawBin_nonneg (B v : ℕ) (hB : B ≠ 0) : 0 ≤ rawBin B v := by
  rw [rawBin_eq B v hB]; positivity

theorem chanBin_nonneg {B : ℕ} (hB : 1 ≤ B) (v : ℕ) : 0 ≤ chanBin B v := by
  unfold chanBin clipBin
  have h1 : (1 : ℤ) ≤ (B : ℤ) := by exact_mod_cast hB
  exact le_min (by omega) (le_max_left 0 _)

theorem chanBin_le {B : ℕ} (v : ℕ) : chanBin B v ≤ (B : ℤ) - 1 :=
  min_le_left _ _

theorem chanBin_lt {B : ℕ} (v : ℕ) : chanBin B v < (B : ℤ) := by
  have := chanBin_le (B := B) v
  omega

/-- Closed form of the clipped channel bin in exact integer arithmetic. -/
theorem chanBin_eq (B v : ℕ) (hB : B ≠ 0) :
    chanBin B v = min ((B : ℤ) - 1) ((v * B / 256 : ℕ) : ℤ) := by
  unfold chanBin clipBin
  rw [rawBin_eq B v hB, max_eq_right (by positivity)]

/-! ## Dominant bin selection (lines 29-30)

`np.unique(bin_index, return_counts=True)` returns the distinct values of
`bin_index` in ascending order together with their multiplicities, and
`np.argmax(counts)` returns the FIRST index attaining the maximum count; the
source then takes `unique_bins[np.argmax(counts)]`. -/

/-- The distinct values of `l` in ascending order: the semantics of
`np.unique`. -/
def uniqueSorted (l : List ℤ) : List ℤ := List.insertionSort (· ≤ ·) l.dedup

/-- First pair with maximal second component: a later entry replaces an
earlier one only when its count is strictly greater, so the earliest maximum
wins — the semantics of `np.argmax` over the count array. -/
def pickFirstMax : List (ℤ × ℕ) → Option (ℤ × ℕ)
  | [] => none
  | e :: rest =>
    match pickFirstMax rest with
    | none => some e
    | some e' => if e'.2 > e.2 then some e' else some e

/-- Lines 29-30: `dom_bin = unique_bins[np.argmax(counts)]`.  The result is
`none` exactly when the bin array is empty, the case in which `np.argmax`
raises `ValueError`. -/
def domBin (bins : List ℤ) : Option ℤ :=
  match pickFirstMax ((uniqueSorted bins).map fun b => (b, bins.count b)) with
  | none => none
  | some e => some e.1

/-! ## Selector lemmas -/

theorem mem_uniqueSorted {l : List ℤ} {b : ℤ} : b ∈ uniqueSorted l ↔ b ∈ l := by
  rw [uniqueSorted, (List.perm_insertionSort _ _).mem_iff, List.mem_dedup]

theorem uniqueSorted_nodup (l : List ℤ) : (uniqueSorted l).Nodup :=
  ((List.perm_insertionSort _ _).nodup_iff).mpr (List.nodup_dedup l)

theorem uniqueSorted_sorted_lt (l : List ℤ) :
    List.Sorted (· < ·) (uniqueSorted l) :=
  (List.sorted_insertionSort _ _).lt_of_le (uniqueSorted_nodup l)

theorem uniqueSorted_eq_nil_iff {l : List ℤ} : uniqueSorted l = [] ↔ l = [] := by
  constructor
  · intro h
    by_contra hne
    obtain ⟨x, hx⟩ := List.exists_mem_of_ne_nil l hne
    have : x ∈ uniqueSorted l := mem_uniqueSorted.mpr hx
    simp [h] at this
  · intro h
    subst h
    rfl

/-- Permuted inputs have the same sorted list of unique values. -/
theorem uniqueSorted_perm {l₁ l₂ : List ℤ} (h : l₁.Perm l₂) :
    uniqueSorted l₁ = uniqueSorted l₂ := by
  refine List.eq_of_perm_of_sorted ?_ (List.sorted_insertionSort _ _)
    (List.sorted_insertionSort _ _)
  exact ((List.perm_insertionSort _ _).trans h.dedup).trans
    (List.perm_insertionSort _ _).symm

theorem pickFirstMax_eq_none {l : List (ℤ × ℕ)} :
    pickFirstMax l = none ↔ l = [] := by
  cases l with
  | nil => simp [pickFirstMax]
  | cons e rest =>
    simp only [pickFirstMax]
    cases pickFirstMax rest with
    | none => simp
    | some e' =>
      by_cases h : e'.2 > e.2 <;> simp [h]

theorem pickFirstMax_mem {l : List (ℤ × ℕ)} {e : ℤ × ℕ}
    (h : pickFirstMax l = some e) : e ∈ l := by
  induction l with
  | nil => simp [pickFirstMax] at h
  | cons a rest ih =>
    cases hrest : pickFirstMax rest with
    | none =>
      simp only [pickFirstMax, hrest] at h
      simp at h
      simp [h]
    | some e' =>
      simp only [pickFirstMax, hrest] at h
      by_cases hc : e'.2 > a.2
      · rw [if_pos hc] at h
        simp at h
        subst h
        exact List.mem_cons_of_mem _ (ih hrest)
      · rw [if_neg hc] at h
        simp at h
        simp [h]

theorem pickFirstMax_le {l : List (ℤ × ℕ)} {e : ℤ × ℕ}
    (h : pickFirstMax l = some e) : ∀ p ∈ l, p.2 ≤ e.2 := by
  induction l generalizing e with
  | nil => simp [pickFirstMax] at h
  | cons a rest ih =>
    intro p hp
    cases hrest : pickFirstMax rest with
    | none =>
      simp only [pickFirstMax, hrest] at h
      simp at h
      have : rest = [] := pickFirstMax_eq_none.mp hrest
      subst this
      simp at hp
      subst hp
      simp [h]
    | some e' =>
      simp only [pickFirstMax, hrest] at h
      rcases List.mem_cons.mp hp with hpa | hpr
      · subst hpa
        by_cases hc : e'.2 > p.2
        · rw [if_pos hc] at h
          simp at h
          subst h
          omega
        · rw [if_neg hc] at h
          simp at h
          subst h
          exact le_refl _
      · have hle := ih hrest p hpr
        by_cases hc : e'.2 > a.2
        · rw [if_pos hc] at h
          simp at h
          subst h
          exact hle
        · rw [if_neg hc] at h
          simp at h
          subst h
          omega

/-- On a list whose first components are strictly increasing, the selected
entry is the one with the LEAST first component among the entries of maximal
count. -/
theorem pickFirstMax_first {l : List (ℤ × ℕ)} {e : ℤ × ℕ}
    (hs : List.Pairwise (fun p q : ℤ × ℕ => p.1 < q.1) l)
    (h : pickFirstMax l = some e) : ∀ p ∈ l, p.2 = e.2 → e.1 ≤ p.1 := by
  induction l with
  | nil => simp [pickFirstMax] at h
  | cons a rest ih =>
    intro p hp hpe
    have hsrest := (List.pairwise_cons.mp hs).2
    have hhead := (List.pairwise_cons.mp hs).1
    cases hrest : pickFirstMax rest with
    | none =>
      simp only [pickFirstMax, hrest] at h
      simp at h
      have : rest = [] := pickFirstMax_eq_none.mp hrest
      subst this
      simp at hp
      subst hp
      simp [h]
    | some e' =>
      simp only [pickFirstMax, hrest] at h
      by_cases hc : e'.2 > a.2
      · rw [if_pos hc] at h
        simp at h
        subst h
        rcases List.mem_cons.mp hp with hpa | hpr
        · subst hpa
          omega
        · exact ih hsrest hrest p hpr hpe
      · rw [if_neg hc] at h
        simp at h
        subst h
        rcases List.mem_cons.mp hp with hpa | hpr
        · subst hpa
          exact le_refl _
        · exact le_of_lt (hhead p hpr)

/-- Full characterization of the selector: on a non-empty bin array it
returns an occupied bin of maximal occupancy, and among tied maximal bins the
numerically least one. -/
theorem domBin_spec {bins : List ℤ} (h : bins ≠ []) :
    ∃ b, domBin bins = some b ∧ b ∈ bins ∧
      (∀ b' ∈ bins, bins.count b' ≤ bins.count b) ∧
      (∀ b' ∈ bins, bins.count b' = bins.count b → b ≤ b') := by
  set entries := (uniqueSorted bins).map fun b => (b, bins.count b) with hentries
  have hne : entries ≠ [] := by
    rw [hentries]
    simp only [ne_eq, List.map_eq_nil_iff]
    exact fun hu => h (uniqueSorted_eq_nil_iff.mp hu)
  obtain ⟨e, he⟩ : ∃ e, pickFirstMax entries = some e := by
    cases hp : pickFirstMax entries with
    | none => exact absurd (pickFirstMax_eq_none.mp hp) hne
    | some e => exact ⟨e, rfl⟩
  have hmem : e ∈ entries := pickFirstMax_mem he
  obtain ⟨b, hbu, hbe⟩ := List.mem_map.mp hmem
  have hcount : e.2 = bins.count b := by rw [← hbe]
  have hb1 : e.1 = b := by rw [← hbe]
  have hpair : List.Pairwise (fun p q : ℤ × ℕ => p.1 < q.1) entries := by
    rw [hentries, List.pairwise_map]
    exact uniqueSorted_sorted_lt bins
  refine ⟨b, ?_, mem_uniqueSorted.mp hbu, ?_, ?_⟩
  · unfold domBin
    rw [← hentries]
    simp only [he]
    rw [hb1]
  · intro b' hb'
    have : (b', bins.count b') ∈ entries := by
      rw [hentries]
      exact List.mem_map.mpr ⟨b', mem_uniqueSorted.mpr hb', rfl⟩
    have := pickFirstMax_le he _ this
    simpa [hcount] using this
  · intro b' hb' hcnt
    have hmem' : (b', bins.count b') ∈ entries := by
      rw [hentries]
      exact List.mem_map.mpr ⟨b', mem_uniqueSorted.mpr hb', rfl⟩
    have := pickFirstMax_first hpair he _ hmem' (by simp [hcount, hcnt])
    simpa [hb1] using this

/-- The selector is invariant under permutation of the bin array. -/
theorem domBin_perm {l₁ l₂ : List ℤ} (h : l₁.Perm l₂) :
    domBin l₁ = domBin l₂ := by
  unfold domBin
  rw [uniqueSorted_perm h]
  have : ((uniqueSorted l₂).map fun b => (b, l₁.count b)) =
      (uniqueSorted l₂).map fun b => (b, l₂.count b) :=
    List.map_congr_left fun b _ => by rw [h.count_eq]
  rw [this]

/-! ## Cluster refinement and the full pipeline -/

/-- Exception classes relevant to a call on a decoded image.
`zeroDivisionError` and `valueError` are what the source can actually raise
(`256 / 0` at line 14; `np.argmax` of an empty array at line 30, and
`int(nan)` at line 40).  `emptyImageError` and `invalidParameterError` are the
class names used by the specification; no class of either name exists in the
source — they are included only so that statements about them can be made. -/
inductive PyExn where
  | zeroDivisionError
  | valueError
  | emptyImageError
  | invalidParameterError
deriving DecidableEq

/-- Line 36: the boolean mask
`(r_bins == rb) & (g_bins == gb) & (b_bins == bb)` at one pixel. -/
def inCluster (B : ℕ) (rb gb bb : ℤ) (p : Pixel) : Bool :=
  chanBin B p.1 == rb && chanBin B p.2.1 == gb && chanBin B p.2.2 == bb

/-- Line 37: `cluster_pixels = pixels[mask]`. -/
def clusterOf (B : ℕ) (buf : List Pixel) (rb gb bb : ℤ) : List Pixel :=
  buf.filter (inCluster B rb gb bb)

/-- Lines 39-40 for one channel: `cluster_pixels.mean(axis=0)` followed by
`int(x)` — the sum divided by the length (float division, modelled exactly in
`ℚ`), truncated toward zero. -/
def truncMean (l : List ℕ) : ℤ := truncInt ((l.sum : ℚ) / (l.length : ℚ))

/-- Lines 32-40: decode the dominant bin, gather its member pixels, and
return the truncated per-channel means.  An empty cluster would make
`mean` return `nan` and `int(nan)` raise `ValueError`; it is proved below
that this branch is unreachable. -/
def refineCluster (buf : List Pixel) (B : ℕ) (dom : ℤ) :
    Except PyExn (ℤ × ℤ × ℤ) :=
  if (clusterOf B buf (decodeBin B dom).1 (decodeBin B dom).2.1
      (decodeBin B dom).2.2).isEmpty then .error .valueError
  else .ok
    (truncMean ((clusterOf B buf (decodeBin B dom).1 (decodeBin B dom).2.1
        (decodeBin B dom).2.2).map (·.1)),
     truncMean ((clusterOf B buf (decodeBin B dom).1 (decodeBin B dom).2.1
        (decodeBin B dom).2.2).map (·.2.1)),
     truncMean ((clusterOf B buf (decodeBin B dom).1 (decodeBin B dom).2.1
        (decodeBin B dom).2.2).map (·.2.2)))

/-- Lines 12-40 of `dominant_color_histogram`, operating on the flattened
pixel buffer (`pixels = arr.reshape(-1, 3)`): quantize, select the dominant
bin, refine.  `bins_per_channel = 0` raises `ZeroDivisionError` at line 14
(`256 / 0`); an empty buffer raises `ValueError` at line 30. -/
def histogramCore (buf : List Pixel) (B : ℕ) : Except PyExn (ℤ × ℤ × ℤ) :=
  if B = 0 then .error .zeroDivisionError
  else
    match domBin (buf.map (binIndex B)) with
    | none => .error .valueError
    | some dom => refineCluster buf B dom

/-! ## Gaussian blur (line 9) and the decoded image -/

/-- A decoded RGB image: the `(H, W, 3)` pixel grid, as rows of pixels. -/
abbrev Grid := List (List Pixel)

/-- Clamping of a (possibly out-of-range) index into `[0, n - 1]`. -/
def clampIdx (n : ℕ) (i : ℤ) : ℕ := (min (max i 0) ((n : ℤ) - 1)).toNat

/-- Pixel access with edge clamping (boundary extension of the blur). -/
def getClamp (g : Grid) (y x : ℤ) : Pixel :=
  let row := g.getD (clampIdx g.length y) []
  row.getD (clampIdx row.length x) (0, 0, 0)

/-- One-dimensional normalized smoothing weights (binomial approximation of a
radius-2 Gaussian), paired with their offsets. -/
def gaussWeights1D : List (ℤ × ℚ) :=
  [(-2, 1/16), (-1, 4/16), (0, 6/16), (1, 4/16), (2, 1/16)]

/-- Modelled from the spec: `img.filter(ImageFilter.GaussianBlur(radius=2))`
is PIL library code not present in the repository; §4.1 of the specification
describes it as a fixed-radius Gaussian smoothing kernel that changes neither
the image dimensions nor the color depth.  It is modelled as the separable
normalized 5×5 kernel built from `gaussWeights1D` (the 25 weights sum to 1),
applied with edge clamping. -/
def gaussWeights : List (ℤ × ℤ × ℚ) :=
  gaussWeights1D.flatMap fun dy =>
    gaussWeights1D.map fun dx => (dy.1, dx.1, dy.2 * dx.2)

/-- Rounding of one smoothed channel value back to an 8-bit integer. -/
def roundChan (q : ℚ) : ℕ := ⌊q + 1 / 2⌋.toNat

/-- The blurred pixel at grid position `(y, x)`. -/
def blurAt (g : Grid) (y x : ℤ) : Pixel :=
  (roundChan ((gaussWeights.map fun t =>
      t.2.2 * ((getClamp g (y + t.1) (x + t.2.1)).1 : ℚ)).sum),
   roundChan ((gaussWeights.map fun t =>
      t.2.2 * ((getClamp g (y + t.1) (x + t.2.1)).2.1 : ℚ)).sum),
   roundChan ((gaussWeights.map fun t =>
      t.2.2 * ((getClamp g (y + t.1) (x + t.2.1)).2.2 : ℚ)).sum))

/-- The blurred image: same height and same row widths as the input. -/
def blurGrid (g : Grid) : Grid :=
  (List.range g.length).map fun y =>
    (List.range (g.getD y []).length).map fun x =>
      blurAt g (Int.ofNat y) (Int.ofNat x)

/-- The core function of the source (lines 6-40), taking the decoded RGB
image (file decoding itself is delegated to PIL and out of scope): optional
Gaussian blur, flatten to the pixel buffer, then quantize-select-refine. -/
def dominant_color_histogram (g : Grid) (B : ℕ) (blur : Bool) :
    Except PyExn (ℤ × ℤ × ℤ) :=
  histogramCore (if blur then blurGrid g else g).flatten B

/-! ## Bin index arithmetic -/

theorem encodeBin_nonneg {B : ℕ} {r g b : ℤ} (hr : 0 ≤ r) (hg : 0 ≤ g)
    (hb : 0 ≤ b) : 0 ≤ encodeBin B r g b := by
  unfold encodeBin
  positivity

theorem encodeBin_lt {B : ℕ} {r g b : ℤ} (hr : r < B) (hg : g < B)
    (hb : b < B) (hg0 : 0 ≤ g) (hb0 : 0 ≤ b) :
    encodeBin B r g b < (B : ℤ) ^ 3 := by
  unfold encodeBin
  set β := (B : ℤ) with hβ
  have hb1 : 0 < β := by
    have : 0 ≤ b := hb0
    omega
  have h1 : r * β ^ 2 ≤ (β - 1) * β ^ 2 :=
    mul_le_mul_of_nonneg_right (by omega) (by positivity)
  have h2 : g * β ≤ (β - 1) * β :=
    mul_le_mul_of_nonneg_right (by omega) (by positivity)
  nlinarith [h1, h2, hb, sq_nonneg β]

/-- Decoding is a left inverse of encoding on triples of in-range bins. -/
theorem decodeBin_encodeBin {B : ℕ} {r g b : ℤ}
    (hr0 : 0 ≤ r) (hr : r < B) (hg0 : 0 ≤ g) (hg : g < B)
    (hb0 : 0 ≤ b) (hb : b < B) :
    decodeBin B (encodeBin B r g b) = (r, g, b) := by
  unfold decodeBin encodeBin
  set β := (B : ℤ) with hβ
  have hβ0 : 0 < β := by omega
  have hgb : b + g * β < β ^ 2 := by
    have h2 : g * β ≤ (β - 1) * β :=
      mul_le_mul_of_nonneg_right (by omega) (by positivity)
    nlinarith [h2, hb]
  have e1 : r * β ^ 2 + g * β + b = b + g * β + r * β ^ 2 := by ring
  have ediv2 : (r * β ^ 2 + g * β + b) / β ^ 2 = r := by
    rw [e1, Int.add_mul_ediv_right _ _ (by positivity : (β : ℤ) ^ 2 ≠ 0),
      Int.ediv_eq_zero_of_lt (add_nonneg hb0 (mul_nonneg hg0 hβ0.le)) hgb]
    ring
  have e2 : r * β ^ 2 + g * β + b = b + (g + r * β) * β := by ring
  have ediv1 : (r * β ^ 2 + g * β + b) / β = g + r * β := by
    rw [e2, Int.add_mul_ediv_right _ _ hβ0.ne',
      Int.ediv_eq_zero_of_lt hb0 hb]
    ring
  have emod1 : (r * β ^ 2 + g * β + b) % β = b := by
    rw [e2, Int.add_mul_emod_self, Int.emod_eq_of_lt hb0 hb]
  have emod2 : (g + r * β) % β = g := by
    rw [Int.add_mul_emod_self, Int.emod_eq_of_lt hg0 hg]
  rw [ediv2, ediv1, emod2, emod1]

/-- Iterated integer division of a nonnegative integer collapses to division
by the square. -/
theorem ediv_ediv_of_nonneg {n : ℤ} (hn : 0 ≤ n) (B : ℕ) :
    n / (B : ℤ) / (B : ℤ) = n / (B : ℤ) ^ 2 := by
  obtain ⟨m, rfl⟩ := Int.eq_ofNat_of_zero_le hn
  have h1 : ((B : ℤ)) ^ 2 = ((B ^ 2 : ℕ) : ℤ) := by push_cast; ring
  rw [h1]
  norm_cast
  rw [Nat.div_div_eq_div_mul, pow_two]

/-- Encoding is a left inverse of decoding on in-range bin indices. -/
theorem encodeBin_decodeBin {B : ℕ} {n : ℤ} (hB : 1 ≤ B) (hn0 : 0 ≤ n) :
    encodeBin B (decodeBin B n).1 (decodeBin B n).2.1 (decodeBin B n).2.2
      = n := by
  unfold decodeBin encodeBin
  set β := (B : ℤ) with hβ
  have hβ0 : 0 < β := by omega
  have h1 : β * (n / β) + n % β = n := Int.ediv_add_emod n β
  have h2 : β * (n / β / β) + (n / β) % β = n / β := Int.ediv_add_emod _ β
  have h3 : n / β / β = n / β ^ 2 := ediv_ediv_of_nonneg hn0 B
  simp only
  nlinarith [h1, h2, h3]

/-! ## Mean lemmas -/

theorem truncMean_nonneg (l : List ℕ) : 0 ≤ truncMean l := by
  unfold truncMean
  rw [truncInt_of_nonneg (by positivity)]
  positivity

theorem truncMean_le {l : List ℕ} {M : ℕ} (hne : l ≠ [])
    (hb : ∀ v ∈ l, v ≤ M) : truncMean l ≤ (M : ℤ) := by
  unfold truncMean
  have hlen : 0 < l.length := List.length_pos.mpr hne
  have hlenQ : (0 : ℚ) < (l.length : ℚ) := by exact_mod_cast hlen
  have hsum : (l.sum : ℚ) ≤ (M : ℚ) * (l.length : ℚ) := by
    have h2 : l.sum ≤ l.length * M := by
      simpa [smul_eq_mul] using List.sum_le_card_nsmul l M hb
    have h3 : ((l.sum : ℕ) : ℚ) ≤ ((l.length * M : ℕ) : ℚ) :=
      Nat.cast_le.mpr h2
    rw [Nat.cast_mul, mul_comm] at h3
    exact h3
  have hq : (l.sum : ℚ) / (l.length : ℚ) ≤ (M : ℚ) := by
    rw [div_le_iff hlenQ]
    linarith
  rw [truncInt_of_nonneg (by positivity)]
  calc ⌊(l.sum : ℚ) / (l.length : ℚ)⌋ ≤ ⌊(M : ℚ)⌋ := Int.floor_le_floor hq
    _ = (M : ℤ) := Int.floor_natCast M

/-- The truncated mean of a non-empty constant list is the constant. -/
theorem truncMean_const {l : List ℕ} {v : ℕ} (hne : l ≠ [])
    (h : ∀ x ∈ l, x = v) : truncMean l = (v : ℤ) := by
  unfold truncMean
  have hrepl : l = List.replicate l.length v :=
    List.eq_replicate.mpr ⟨rfl, h⟩
  have hlen : 0 < l.length := List.length_pos.mpr hne
  have hlenQ : ((l.length : ℚ)) ≠ 0 := by
    exact_mod_cast hlen.ne'
  have hsum : (l.sum : ℚ) = (l.length : ℚ) * (v : ℚ) := by
    conv_lhs => rw [hrepl]
    rw [List.sum_replicate]
    push_cast [smul_eq_mul]
    ring
  rw [hsum, mul_comm, mul_div_assoc, div_self hlenQ, mul_one, truncInt_natCast]

/-! ## Pipeline lemmas -/

/-- The core succeeds on every non-empty valid buffer whenever `B ≥ 1`: the
selected bin is an occupied one, its cluster is non-empty, and every returned
component lies in `[0, 255]`. -/
theorem histogramCore_ok {buf : List Pixel} {B : ℕ} (hne : buf ≠ [])
    (hB : 1 ≤ B) (hv : ∀ p ∈ buf, ValidPixel p) :
    ∃ dom r g b : ℤ,
      domBin (buf.map (binIndex B)) = some dom ∧
      1 ≤ (clusterOf B buf (decodeBin B dom).1 (decodeBin B dom).2.1
            (decodeBin B dom).2.2).length ∧
      histogramCore buf B = .ok (r, g, b) ∧
      0 ≤ r ∧ r ≤ 255 ∧ 0 ≤ g ∧ g ≤ 255 ∧ 0 ≤ b ∧ b ≤ 255 := by
  have hB0 : B ≠ 0 := by omega
  have hbins : buf.map (binIndex B) ≠ [] := by
    simpa [List.map_eq_nil_iff] using hne
  obtain ⟨dom, hdom, hdommem, -, -⟩ := domBin_spec hbins
  obtain ⟨p₀, hp₀, hp₀e⟩ := List.mem_map.mp hdommem
  have hdec : decodeBin B dom =
      (chanBin B p₀.1, chanBin B p₀.2.1, chanBin B p₀.2.2) := by
    rw [← hp₀e, binIndex]
    exact decodeBin_encodeBin (chanBin_nonneg hB _) (chanBin_lt _)
      (chanBin_nonneg hB _) (chanBin_lt _) (chanBin_nonneg hB _) (chanBin_lt _)
  set cl := clusterOf B buf (decodeBin B dom).1 (decodeBin B dom).2.1
    (decodeBin B dom).2.2 with hcl
  have hp₀cl : p₀ ∈ cl := by
    rw [hcl, hdec]
    exact List.mem_filter.mpr ⟨hp₀, by simp [inCluster]⟩
  have hclne : cl ≠ [] := List.ne_nil_of_mem hp₀cl
  have hcllen : 1 ≤ cl.length := List.length_pos.mpr hclne
  have hcore : histogramCore buf B =
      .ok (truncMean (cl.map (·.1)), truncMean (cl.map (·.2.1)),
           truncMean (cl.map (·.2.2))) := by
    unfold histogramCore
    rw [if_neg hB0]
    simp only [hdom]
    unfold refineCluster
    rw [← hcl, if_neg (by simpa [List.isEmpty_iff] using hclne)]
  have hsub : ∀ p ∈ cl, ValidPixel p := by
    intro p hp
    exact hv p (List.mem_filter.mp (hcl ▸ hp)).1
  have hbound : ∀ f : Pixel → ℕ, (∀ p : Pixel, ValidPixel p → f p ≤ 255) →
      0 ≤ truncMean (cl.map f) ∧ truncMean (cl.map f) ≤ 255 := by
    intro f hf
    refine ⟨truncMean_nonneg _, ?_⟩
    have := truncMean_le (l := cl.map f) (M := 255)
      (by simpa [List.map_eq_nil_iff] using hclne) ?_
    · exact_mod_cast this
    · intro v hvmem
      obtain ⟨p, hp, rfl⟩ := List.mem_map.mp hvmem
      exact hf p (hsub p hp)
  obtain ⟨h1a, h1b⟩ := hbound (·.1) fun p hp => hp.1
  obtain ⟨h2a, h2b⟩ := hbound (·.2.1) fun p hp => hp.2.1
  obtain ⟨h3a, h3b⟩ := hbound (·.2.2) fun p hp => hp.2.2
  exact ⟨dom, _, _, _, hdom, hcllen, hcore, h1a, h1b, h2a, h2b, h3a, h3b⟩

/-- On a constant buffer the core returns exactly the constant pixel. -/
theorem histogramCore_const {buf : List Pixel} {c : Pixel} {B : ℕ}
    (hne : buf ≠ []) (hB : 1 ≤ B) (hc : ∀ p ∈ buf, p = c) :
    histogramCore buf B = .ok ((c.1 : ℤ), (c.2.1 : ℤ), (c.2.2 : ℤ)) := by
  have hB0 : B ≠ 0 := by omega
  have hcmem : c ∈ buf := by
    obtain ⟨p, hp⟩ := List.exists_mem_of_ne_nil buf hne
    exact hc p hp ▸ hp
  have hbins : buf.map (binIndex B) ≠ [] := by
    simpa [List.map_eq_nil_iff] using hne
  obtain ⟨dom, hdom, hdommem, -, -⟩ := domBin_spec hbins
  obtain ⟨p₀, hp₀, hp₀e⟩ := List.mem_map.mp hdommem
  have hp₀c : p₀ = c := hc p₀ hp₀
  subst hp₀c
  have hdec : decodeBin B dom =
      (chanBin B p₀.1, chanBin B p₀.2.1, chanBin B p₀.2.2) := by
    rw [← hp₀e, binIndex]
    exact decodeBin_encodeBin (chanBin_nonneg hB _) (chanBin_lt _)
      (chanBin_nonneg hB _) (chanBin_lt _) (chanBin_nonneg hB _) (chanBin_lt _)
  have hfull : clusterOf B buf (decodeBin B dom).1 (decodeBin B dom).2.1
      (decodeBin B dom).2.2 = buf := by
    rw [hdec]
    unfold clusterOf
    refine List.filter_eq_self.mpr fun p hp => ?_
    rw [hc p hp]
    simp [inCluster]
  unfold histogramCore
  rw [if_neg hB0]
  simp only [hdom]
  unfold refineCluster
  rw [hfull, if_neg (by simpa [List.isEmpty_iff] using hne)]
  have hm : ∀ f : Pixel → ℕ,
      truncMean (buf.map f) = ((f p₀ : ℕ) : ℤ) := by
    intro f
    refine truncMean_const (by simpa [List.map_eq_nil_iff] using hne) ?_
    intro x hx
    obtain ⟨p, hp, rfl⟩ := List.mem_map.mp hx
    rw [hc p hp]
  rw [hm (·.1), hm (·.2.1), hm (·.2.2)]

/-! ## Blur lemmas -/

theorem getClamp_const {g : Grid} {c : Pixel} (hne : g ≠ [])
    (hrows : ∀ row ∈ g, row ≠ []) (hc : ∀ row ∈ g, ∀ p ∈ row, p = c)
    (y x : ℤ) : getClamp g y x = c := by
  unfold getClamp clampIdx
  have hlen : 0 < g.length := List.length_pos.mpr hne
  have hy : (min (max y 0) ((g.length : ℤ) - 1)).toNat < g.length := by omega
  rw [List.getD_eq_getElem g [] hy]
  have hrow : g[(min (max y 0) ((g.length : ℤ) - 1)).toNat] ∈ g :=
    List.getElem_mem _
  have hrne := hrows _ hrow
  have hrlen : 0 < (g[(min (max y 0) ((g.length : ℤ) - 1)).toNat]).length :=
    List.length_pos.mpr hrne
  rw [List.getD_eq_getElem _ (0, 0, 0) (by omega)]
  exact hc _ hrow _ (List.getElem_mem _)

/-- The 25 kernel weights sum to 1, so a constant input is a fixed point of
the weighted sum. -/
theorem gaussWeights_sum_mul (q : ℚ) :
    (gaussWeights.map fun t => t.2.2 * q).sum = q := by
  simp [gaussWeights, gaussWeights1D]
  ring

theorem roundChan_natCast (v : ℕ) : roundChan (v : ℚ) = v := by
  unfold roundChan
  have h : ⌊(v : ℚ) + 1 / 2⌋ = (v : ℤ) := by
    rw [Int.floor_eq_iff]
    constructor
    · push_cast
      linarith
    · push_cast
      linarith
  rw [h, Int.toNat_natCast]

theorem blurAt_const {g : Grid} {c : Pixel} (hne : g ≠ [])
    (hrows : ∀ row ∈ g, row ≠ []) (hc : ∀ row ∈ g, ∀ p ∈ row, p = c)
    (y x : ℤ) : blurAt g y x = c := by
  have hg : ∀ t : ℤ × ℤ × ℚ, t ∈ gaussWeights →
      getClamp g (y + t.1) (x + t.2.1) = c := fun t _ =>
    getClamp_const hne hrows hc _ _
  have key : ∀ ch : Pixel → ℕ,
      (gaussWeights.map fun t =>
        t.2.2 * ((ch (getClamp g (y + t.1) (x + t.2.1)) : ℕ) : ℚ)).sum
        = ((ch c : ℕ) : ℚ) := by
    intro ch
    have hmap : (gaussWeights.map fun t =>
        t.2.2 * ((ch (getClamp g (y + t.1) (x + t.2.1)) : ℕ) : ℚ)) =
        gaussWeights.map fun t => t.2.2 * ((ch c : ℕ) : ℚ) :=
      List.map_congr_left fun t ht => by rw [hg t ht]
    rw [hmap, gaussWeights_sum_mul]
  unfold blurAt
  rw [key (·.1), key (·.2.1), key (·.2.2),
    roundChan_natCast, roundChan_natCast, roundChan_natCast]

/-- The blur of a non-empty constant image is the same constant image (same
dimensions, every pixel still `c`). -/
theorem blurGrid_const {g : Grid} {c : Pixel} (hne : g ≠ [])
    (hrows : ∀ row ∈ g, row ≠ []) (hc : ∀ row ∈ g, ∀ p ∈ row, p = c) :
    blurGrid g ≠ [] ∧ (∀ row ∈ blurGrid g, row ≠ []) ∧
      ∀ row ∈ blurGrid g, ∀ p ∈ row, p = c := by
  have hlen : 0 < g.length := List.length_pos.mpr hne
  refine ⟨?_, ?_, ?_⟩
  · unfold blurGrid
    simp only [ne_eq, List.map_eq_nil_iff, List.range_eq_nil]
    omega
  · intro row hrow
    obtain ⟨y, hy, rfl⟩ := List.mem_map.mp hrow
    have hylt : y < g.length := List.mem_range.mp hy
    have : g.getD y [] ∈ g := by
      rw [List.getD_eq_getElem g [] hylt]
      exact List.getElem_mem _
    have hd := List.length_pos.mpr (hrows _ this)
    intro hcontra
    rw [List.map_eq_nil_iff, List.range_eq_nil] at hcontra
    omega
  · intro row hrow p hp
    obtain ⟨y, hy, rfl⟩ := List.mem_map.mp hrow
    obtain ⟨x, hx, rfl⟩ := List.mem_map.mp hp
    exact blurAt_const hne hrows hc _ _

/-- Blurring a zero-pixel image yields a zero-pixel image. -/
theorem blurGrid_flatten_nil {g : Grid} (h : g.flatten = []) :
    (blurGrid g).flatten = [] := by
  rw [List.flatten_eq_nil_iff] at h ⊢
  intro row hrow
  obtain ⟨y, hy, rfl⟩ := List.mem_map.mp hrow
  have hylt : y < g.length := List.mem_range.mp hy
  have hrow0 : g.getD y [] = [] := by
    rw [List.getD_eq_getElem g [] hylt]
    exact h _ (List.getElem_mem _)
  rw [hrow0]
  simp

/-- The core on a zero-pixel buffer: `np.argmax` of an empty array raises
`ValueError`. -/
theorem histogramCore_nil {B : ℕ} (hB : B ≠ 0) :
    histogramCore [] B = .error .valueError := by
  unfold histogramCore
  rw [if_neg hB]
  rfl

/-- The truncated mean is invariant under permutation. -/
theorem truncMean_perm {l₁ l₂ : List ℕ} (h : l₁.Perm l₂) :
    truncMean l₁ = truncMean l₂ := by
  unfold truncMean
  rw [h.sum_eq, h.length_eq]

/-! ## Claims -/

/-- C1: for every channel value `v ∈ [0, 255]` and every supported
`bins_per_channel` `B ∈ [4, 128]`, the per-channel bin is
`floor(v / (256 / B))` with real-valued division of 256 by `B` before
flooring, then clamped to `[0, B-1]`; and this is NOT the integer-rounded
bin width: at `v = 219`, `B = 7` the code yields bin 5 while
`v // (256 // B)` would yield 6. -/
theorem C1_quantizer_realdiv_floor_clamp :
    (∀ v B : ℕ, v ≤ 255 → 4 ≤ B → B ≤ 128 →
      chanBin B v =
        min ((B : ℤ) - 1) (max 0 ⌊(v : ℚ) / ((256 : ℚ) / (B : ℚ))⌋)) ∧
    chanBin 7 219 = 5 ∧ ((219 / (256 / 7) : ℕ) : ℤ) = 6 := by
  refine ⟨?_, ?_, ?_⟩
  · intro v B hv h4 h128
    have h0 : (0 : ℚ) ≤ (v : ℚ) / factor B := by
      unfold factor
      positivity
    unfold chanBin clipBin rawBin
    rw [truncInt_of_nonneg h0]
    rfl
  · rw [chanBin_eq 7 219 (by decide)]
    decide
  · decide

theorem C1_witness :
    chanBin 32 200 =
      min ((32 : ℤ) - 1) (max 0 ⌊(200 : ℚ) / ((256 : ℚ) / (32 : ℚ))⌋) :=
  C1_quantizer_realdiv_floor_clamp.1 200 32 (by decide) (by decide) (by decide)

/-- C2: on every non-empty buffer of valid pixels and every supported bin
count, the core returns a triple of integers in `[0, 255]`, and the cluster
of the selected dominant bin is non-empty (occupancy at least 1). -/
theorem C2_result_range_cluster_nonempty {buf : List Pixel} {B : ℕ}
    (hne : buf ≠ []) (h4 : 4 ≤ B) (h128 : B ≤ 128)
    (hv : ∀ p ∈ buf, ValidPixel p) :
    ∃ dom r g b : ℤ,
      domBin (buf.map (binIndex B)) = some dom ∧
      1 ≤ (clusterOf B buf (decodeBin B dom).1 (decodeBin B dom).2.1
            (decodeBin B dom).2.2).length ∧
      histogramCore buf B = .ok (r, g, b) ∧
      0 ≤ r ∧ r ≤ 255 ∧ 0 ≤ g ∧ g ≤ 255 ∧ 0 ≤ b ∧ b ≤ 255 :=
  histogramCore_ok hne (by omega) hv

theorem C2_witness :
    ∃ dom r g b : ℤ,
      domBin ([((3 : ℕ), (250 : ℕ), (128 : ℕ))].map (binIndex 32)) = some dom ∧
      1 ≤ (clusterOf 32 [(3, 250, 128)] (decodeBin 32 dom).1
            (decodeBin 32 dom).2.1 (decodeBin 32 dom).2.2).length ∧
      histogramCore [(3, 250, 128)] 32 = .ok (r, g, b) ∧
      0 ≤ r ∧ r ≤ 255 ∧ 0 ≤ g ∧ g ≤ 255 ∧ 0 ≤ b ∧ b ≤ 255 :=
  C2_result_range_cluster_nonempty (by decide) (by decide) (by decide)
    (by decide)

/-- C3: an image consisting entirely of the pixel `(200, 50, 10)` (any
supported bin count, blur on or off) yields exactly `(200, 50, 10)`. -/
theorem C3_single_color {g : Grid} {B : ℕ} {blur : Bool}
    (hne : g ≠ []) (hrows : ∀ row ∈ g, row ≠ [])
    (hc : ∀ row ∈ g, ∀ p ∈ row, p = (200, 50, 10))
    (h4 : 4 ≤ B) (h128 : B ≤ 128) :
    dominant_color_histogram g B blur = .ok (200, 50, 10) := by
  have hB : 1 ≤ B := by omega
  have main : ∀ g' : Grid, g' ≠ [] → (∀ row ∈ g', row ≠ []) →
      (∀ row ∈ g', ∀ p ∈ row, p = ((200, 50, 10) : Pixel)) →
      histogramCore g'.flatten B = .ok (200, 50, 10) := by
    intro g' hne' hrows' hc'
    have hfne : g'.flatten ≠ [] := by
      intro hcontra
      rw [List.flatten_eq_nil_iff] at hcontra
      obtain ⟨row, hrow⟩ := List.exists_mem_of_ne_nil g' hne'
      exact hrows' row hrow (hcontra row hrow)
    have hfc : ∀ p ∈ g'.flatten, p = ((200, 50, 10) : Pixel) := by
      intro p hp
      obtain ⟨row, hrow, hpr⟩ := List.mem_flatten.mp hp
      exact hc' row hrow p hpr
    simpa using histogramCore_const hfne hB hfc
  unfold dominant_color_histogram
  cases blur
  · simpa using main g hne hrows hc
  · obtain ⟨h1, h2, h3⟩ := blurGrid_const hne hrows hc
    simpa using main (blurGrid g) h1 h2 h3

theorem C3_witness :
    dominant_color_histogram [[(200, 50, 10)], [(200, 50, 10)]] 4 true =
      .ok (200, 50, 10) :=
  C3_single_color (g := [[(200, 50, 10)], [(200, 50, 10)]]) (B := 4)
    (by decide) (by decide) (by decide) (by decide) (by decide)

/-- C4: for every `B ≥ 1`, `BinIndex = r*B² + g*B + b` maps `[0,B)³` into
`[0,B³)` and the Refiner's decode (`bin // B²`, `(bin // B) % B`, `bin % B`)
is its exact two-sided inverse, so the combination is a bijection. -/
theorem C4_binIndex_bijection :
    ∀ B : ℕ, 1 ≤ B →
      (∀ r g b : ℤ, 0 ≤ r → r < B → 0 ≤ g → g < B → 0 ≤ b → b < B →
        0 ≤ encodeBin B r g b ∧ encodeBin B r g b < (B : ℤ) ^ 3 ∧
          decodeBin B (encodeBin B r g b) = (r, g, b)) ∧
      (∀ n : ℤ, 0 ≤ n → n < (B : ℤ) ^ 3 →
        encodeBin B (decodeBin B n).1 (decodeBin B n).2.1
          (decodeBin B n).2.2 = n) := by
  intro B hB
  constructor
  · intro r g b hr0 hr hg0 hg hb0 hb
    exact ⟨encodeBin_nonneg hr0 hg0 hb0, encodeBin_lt hr hg hb hg0 hb0,
      decodeBin_encodeBin hr0 hr hg0 hg hb0 hb⟩
  · intro n hn0 hn
    exact encodeBin_decodeBin hB hn0

theorem C4_witness :
    decodeBin 3 (encodeBin 3 2 1 0) = (2, 1, 0) ∧
    encodeBin 3 (decodeBin 3 17).1 (decodeBin 3 17).2.1
      (decodeBin 3 17).2.2 = 17 :=
  ⟨((C4_binIndex_bijection 3 (by decide)).1 2 1 0 (by decide) (by decide)
      (by decide) (by decide) (by decide) (by decide)).2.2,
   (C4_binIndex_bijection 3 (by decide)).2 17 (by decide) (by decide)⟩

/-- C5 counterexample: on a zero-pixel image the source fails with numpy's
`ValueError` (`np.argmax` of an empty array at line 30), which is not a
class named `EmptyImageError`; no such class exists anywhere in the code. -/
theorem C5_counterexample :
    dominant_color_histogram [] 32 true = .error .valueError ∧
      PyExn.valueError ≠ PyExn.emptyImageError := by
  exact ⟨rfl, by decide⟩

/-- C5 amended: on every zero-pixel image (and any `bins_per_channel ≥ 1`,
blur on or off) the function fails — with the `ValueError` numpy raises for
`argmax` of an empty array, not with a dedicated `EmptyImageError` — and
never returns an RGB triple. -/
theorem C5_empty_fails {g : Grid} {B : ℕ} {blur : Bool} (hB : 1 ≤ B)
    (h : g.flatten = []) :
    dominant_color_histogram g B blur = .error .valueError := by
  have hflat : (if blur then blurGrid g else g).flatten = [] := by
    cases blur
    · simpa using h
    · simpa using blurGrid_flatten_nil h
  unfold dominant_color_histogram
  rw [hflat]
  exact histogramCore_nil (by omega)

theorem C5_witness :
    dominant_color_histogram [[]] 7 true = .error .valueError :=
  C5_empty_fails (by decide) (by decide)

/-- C6 counterexample: with `bins_per_channel = 200`, outside the supported
range `4..128`, the core silently proceeds and returns a color rather than
failing: there is no `InvalidParameterError` (nor any validation) in the
core; the only range enforcement is the GUI's
`wx.SpinCtrl(panel, min=4, max=128, initial=32)` in the caller. -/
theorem C6_counterexample :
    dominant_color_histogram [[(1, 2, 3)]] 200 false = .ok (1, 2, 3) ∧
      ∀ e : PyExn, dominant_color_histogram [[(1, 2, 3)]] 200 false ≠
        .error e := by
  have h : dominant_color_histogram [[(1, 2, 3)]] 200 false = .ok (1, 2, 3) := by
    unfold dominant_color_histogram
    have := histogramCore_const (c := (1, 2, 3)) (B := 200)
      (show [((1 : ℕ), (2 : ℕ), (3 : ℕ))] ≠ [] by decide) (by decide)
      (by decide)
    simpa using this
  refine ⟨h, fun e => ?_⟩
  rw [h]
  simp

/-- C6 amended: the core performs no validation of `bins_per_channel`.  No
`InvalidParameterError`-style rejection can occur (the class does not exist
in the code), and out-of-range bin counts are processed rather than
rejected: for every `B` with `1 ≤ B ≤ 1290` — the range on which the
source's fixed-width `bin_index` cannot overflow (`1290 ^ 3 < 2 ^ 31`), so
the unbounded-integer model is faithful — the core proceeds on a non-empty
valid buffer and returns a color.  `B = 0` fails with `ZeroDivisionError`
from `256 / bins_per_channel`.  (For vastly larger `B`, far beyond anything
the GUI can submit, the source's fixed-width `bin_index` wraps and the call
fails with `ValueError` — still never with a parameter rejection; that
regime lies outside this model and this theorem.)  Range enforcement exists
only in the GUI caller's spin control. -/
theorem C6_no_validation :
    (∀ (buf : List Pixel) (B : ℕ), B ≤ 1290 →
      histogramCore buf B ≠ .error .invalidParameterError) ∧
    (∀ (buf : List Pixel) (B : ℕ), 1 ≤ B → B ≤ 1290 → buf ≠ [] →
      (∀ p ∈ buf, ValidPixel p) → ∃ t, histogramCore buf B = .ok t) ∧
    ∀ buf : List Pixel, histogramCore buf 0 = .error .zeroDivisionError := by
  refine ⟨?_, ?_, ?_⟩
  · intro buf B hB
    unfold histogramCore
    split
    · simp
    · split
      · simp
      · unfold refineCluster
        split
        · simp
        · simp
  · intro buf B hB hB2 hne hv
    obtain ⟨dom, r, g, b, -, -, hok, -⟩ := histogramCore_ok hne hB hv
    exact ⟨_, hok⟩
  · intro buf
    unfold histogramCore
    rw [if_pos rfl]

theorem C6_witness :
    ∃ t, histogramCore [((255 : ℕ), (255 : ℕ), (255 : ℕ))] 200 = .ok t :=
  C6_no_validation.2.1 [(255, 255, 255)] 200 (by decide) (by decide)
    (by decide) (by decide)

/-- C7: the pipeline is a pure function of
`(image, bins_per_channel, apply_blur)`: two invocations on identical inputs
(tied histogram bins included — the tie-break is itself a function of the
input, see the selector) return identical results. -/
theorem C7_deterministic (g g' : Grid) (B B' : ℕ) (bl bl' : Bool)
    (hg : g = g') (hB : B = B') (hbl : bl = bl') :
    dominant_color_histogram g B bl = dominant_color_histogram g' B' bl' := by
  subst hg
  subst hB
  subst hbl
  rfl

theorem C7_witness :
    dominant_color_histogram [[(9, 9, 9)]] 32 true =
      dominant_color_histogram [[(9, 9, 9)]] 32 true :=
  C7_deterministic _ _ _ _ _ _ rfl rfl rfl

/-- C8: the quantize-select-refine pipeline is invariant under permutation
of the pixel buffer: permuted buffers give identical results (the same
dominant bin via the permutation-invariant sorted-unique histogram, and the
same cluster mean). -/
theorem C8_perm_invariant {buf buf' : List Pixel} {B : ℕ}
    (h : buf.Perm buf') :
    histogramCore buf B = histogramCore buf' B := by
  unfold histogramCore
  by_cases hB : B = 0
  · rw [if_pos hB, if_pos hB]
  · rw [if_neg hB, if_neg hB, domBin_perm (h.map (binIndex B))]
    cases hdom : domBin (buf'.map (binIndex B)) with
    | none => rfl
    | some dom =>
      show refineCluster buf B dom = refineCluster buf' B dom
      have hcl := h.filter (inCluster B (decodeBin B dom).1
        (decodeBin B dom).2.1 (decodeBin B dom).2.2)
      unfold refineCluster clusterOf
      rw [hcl.isEmpty_eq, truncMean_perm (hcl.map (·.1)),
        truncMean_perm (hcl.map (·.2.1)), truncMean_perm (hcl.map (·.2.2))]

theorem C8_witness :
    histogramCore [((1 : ℕ), (2 : ℕ), (3 : ℕ)), (4, 5, 6)] 8 =
      histogramCore [(4, 5, 6), (1, 2, 3)] 8 :=
  C8_perm_invariant (by decide)

/-- C9: the channel bin of value 255 with `bins_per_channel = 7` is 6, and
in general for every channel value in `[0, 255]` and every `B ≥ 1` the
clipped bin lies in `[0, B-1]`. -/
theorem C9_bin_in_range :
    (∀ v B : ℕ, v ≤ 255 → 1 ≤ B →
      0 ≤ chanBin B v ∧ chanBin B v ≤ (B : ℤ) - 1) ∧
    chanBin 7 255 = 6 := by
  constructor
  · intro v B hv hB
    exact ⟨chanBin_nonneg hB v, chanBin_le v⟩
  · rw [chanBin_eq 7 255 (by decide)]
    decide

theorem C9_witness :
    0 ≤ chanBin 7 255 ∧ chanBin 7 255 ≤ (7 : ℤ) - 1 :=
  C9_bin_in_range.1 255 7 (by decide) (by decide)

/-- C10: on a non-empty bin array the selector (`np.unique` in ascending
order composed with first-position `np.argmax`) returns an occupied bin of
maximal occupancy, and when several bins tie for the maximum it returns the
numerically lowest bin index among them. -/
theorem C10_tie_lowest_bin {bins : List ℤ} (hne : bins ≠ []) :
    ∃ b, domBin bins = some b ∧ b ∈ bins ∧
      (∀ b' ∈ bins, bins.count b' ≤ bins.count b) ∧
      (∀ b' ∈ bins, bins.count b' = bins.count b → b ≤ b') :=
  domBin_spec hne

theorem C10_witness :
    ∃ b, domBin [5, 3, 3, 5] = some b ∧ b ∈ [5, 3, 3, 5] ∧
      (∀ b' ∈ [(5 : ℤ), 3, 3, 5],
        List.count b' [(5 : ℤ), 3, 3, 5] ≤ List.count b [(5 : ℤ), 3, 3, 5]) ∧
      (∀ b' ∈ [(5 : ℤ), 3, 3, 5],
        List.count b' [(5 : ℤ), 3, 3, 5] = List.count b [(5 : ℤ), 3, 3, 5] →
          b ≤ b') :=
  C10_tie_lowest_bin (by decide)

end DominantColor
